import Mathlib

/-!
Shallow embedding of `pickship.py`: the domain model (Item, LineItem, Order,
Box, PickShip), the unroll step, the first-fit-descending bin packer and the
reroll step, together with theorems checking the specification's claims.

Modelling choices:
* Python `float` weights are modelled as exact rationals `ℚ`.
* Python `int` quantities are modelled as `Int`; `range(qty)` yields
  `qty.toNat` iterations, exactly as in Python.
* A Python `dict` inventory is modelled as an association list with
  first-match lookup; `inventory[code]` raising `KeyError` becomes
  `invFind` returning `none`, surfaced as the error `unknownItemCode`.
* `sorted(items, key=weight, reverse=True)` is a stable descending sort;
  it is modelled by `List.insertionSort` with the weight-descending
  relation, which realises exactly that contract.
* Exceptions are modelled by `Except PickErr`.
-/

deriving instance DecidableEq for Except

namespace Pickship

/-- `class Item` of the source: code, display name and unit weight. -/
structure Item where
  code : String
  name : String
  weight : ℚ
deriving DecidableEq

/-- `class LineItem` of the source: an item code and a quantity. -/
structure LineItem where
  code : String
  qty : Int
deriving DecidableEq

/-- `class Order` of the source. -/
structure Order where
  number : Int
  customer_code : String
  line_items : List LineItem
deriving DecidableEq

/-- The inventory `dict` of the source, as an association list. -/
abbrev Inventory := List (String × Item)

/-- Dictionary lookup `inventory[code]`: first pair whose key matches. -/
def invFind (inv : Inventory) (c : String) : Option Item :=
  match inv with
  | [] => none
  | (k, it) :: rest => if k = c then some it else invFind rest c

/-- The exceptions the core can raise: `KeyError` on a missing inventory
code, and the "Item size greater than bin capacity" error of the packer. -/
inductive PickErr where
  | unknownItemCode (code : String)
  | itemExceedsCapacity
deriving DecidableEq

/-- The unroll loop of `make_pickship`: for each line item, look its code up
in the inventory (KeyError if absent) and append `qty` copies of the item
(`range(li.qty)` is empty when `qty ≤ 0`). -/
def unroll (inv : Inventory) : List LineItem → Except PickErr (List Item)
  | [] => .ok []
  | li :: rest =>
    match invFind inv li.code with
    | none => .error (.unknownItemCode li.code)
    | some item =>
      match unroll inv rest with
      | .error e => .error e
      | .ok items => .ok (List.replicate li.qty.toNat item ++ items)

/-- `class Bin` of the source: items plus their cumulative weight. -/
structure Bin where
  items : List Item
  weight : ℚ
deriving DecidableEq

/-- `Bin()` constructor: empty, weight 0. -/
def Bin.empty : Bin := ⟨[], 0⟩

/-- `Bin.add`: append the item and add its weight. -/
def Bin.add (b : Bin) (item : Item) : Bin :=
  ⟨b.items ++ [item], b.weight + item.weight⟩

/-- The weight-descending order used by `sorted(key=weight, reverse=True)`:
`a` comes no later than `b` when `a` weighs at least as much. -/
def itemGE (a b : Item) : Prop := b.weight ≤ a.weight

instance : DecidableRel itemGE := fun a b =>
  inferInstanceAs (Decidable (b.weight ≤ a.weight))

/-- `sorted(items, key=lambda i: i.weight, reverse=True)`: a stable sort,
descending by weight, modelled by stable insertion sort. -/
def sortDesc (items : List Item) : List Item :=
  List.insertionSort itemGE items

/-- The inner loop of `first_fit_descending_pack`: scan the bins in creation
order, add the item to the first bin with enough remaining capacity, or
append a fresh bin holding just the item. -/
def placeItem (capacity : ℚ) (item : Item) : List Bin → List Bin
  | [] => [Bin.empty.add item]
  | b :: bs =>
    if item.weight ≤ capacity - b.weight then b.add item :: bs
    else b :: placeItem capacity item bs

/-- The outer loop of `first_fit_descending_pack`: for each sorted item,
raise if it alone exceeds the capacity, otherwise place it. -/
def packLoop (capacity : ℚ) (bins : List Bin) :
    List Item → Except PickErr (List Bin)
  | [] => .ok bins
  | item :: rest =>
    if capacity < item.weight then .error .itemExceedsCapacity
    else packLoop capacity (placeItem capacity item bins) rest

/-- `first_fit_descending_pack(items, capacity)` of the source. -/
def first_fit_descending_pack (items : List Item) (capacity : ℚ) :
    Except PickErr (List Bin) :=
  packLoop capacity [] (sortDesc items)

/-- One step of `collections.Counter`: increment the count of `c`, adding
the key at the end (insertion order) if it is new. -/
def bumpCode (c : String) : List (String × Nat) → List (String × Nat)
  | [] => [(c, 1)]
  | (k, n) :: rest =>
    if k = c then (k, n + 1) :: rest else (k, n) :: bumpCode c rest

/-- `collections.Counter(codes)`: counts keyed in first-encounter order. -/
def counter (codes : List String) : List (String × Nat) :=
  codes.foldl (fun acc c => bumpCode c acc) []

/-- `class Box` of the source: number, line items and derived weight. -/
structure Box where
  number : Nat
  line_items : List LineItem
  weight : ℚ
deriving DecidableEq

/-- The `Box.__init__` weight loop: sum of
`inventory[li.code].weight * li.qty`, KeyError if a code is absent. -/
def boxWeight (inv : Inventory) : List LineItem → Except PickErr ℚ
  | [] => .ok 0
  | li :: rest =>
    match invFind inv li.code with
    | none => .error (.unknownItemCode li.code)
    | some item =>
      match boxWeight inv rest with
      | .error e => .error e
      | .ok w => .ok (item.weight * (li.qty : ℚ) + w)

/-- `class PickShip` of the source: order number, boxes, derived weight. -/
structure PickShip where
  order_number : Int
  boxes : List Box
  weight : ℚ
deriving DecidableEq

/-- The line items a bin is rerolled into: one per distinct code, in
first-encounter order, quantity = count of that code in the bin. -/
def rerollLineItems (b : Bin) : List LineItem :=
  (counter (b.items.map Item.code)).map (fun p => ⟨p.1, (p.2 : Int)⟩)

/-- The reroll loop of `make_pickship`: `enumerate(bins)`, Counter per bin,
then construct each Box (deriving its weight from the inventory). -/
def rerollBins (inv : Inventory) (i : Nat) :
    List Bin → Except PickErr (List Box)
  | [] => .ok []
  | b :: bs =>
    match boxWeight inv (rerollLineItems b) with
    | .error e => .error e
    | .ok w =>
      match rerollBins inv (i + 1) bs with
      | .error e => .error e
      | .ok boxes => .ok (⟨i, rerollLineItems b, w⟩ :: boxes)

/-- `make_pickship(order, inventory, capacity)` of the source:
unroll, pack, reroll, then assemble the PickShip. -/
def make_pickship (order : Order) (inv : Inventory) (capacity : ℚ) :
    Except PickErr PickShip :=
  match unroll inv order.line_items with
  | .error e => .error e
  | .ok items =>
    match first_fit_descending_pack items capacity with
    | .error e => .error e
    | .ok bins =>
      match rerollBins inv 0 bins with
      | .error e => .error e
      | .ok boxes => .ok ⟨order.number, boxes, (boxes.map Box.weight).sum⟩

/-- Inventory well-formedness from the data model: the map sends each code
to an item carrying that code (as `read_inventory` guarantees). -/
def invWF (inv : Inventory) : Prop := ∀ p ∈ inv, (p.2).code = p.1

/-- Total quantity of code `c` over a list of line items. -/
def lineQty (lis : List LineItem) (c : String) : Int :=
  (lis.map (fun li => if li.code = c then li.qty else 0)).sum

/-- Total quantity of code `c` over all boxes of a manifest. -/
def boxesQty (boxes : List Box) (c : String) : Int :=
  (boxes.map (fun b => lineQty b.line_items c)).sum

/-- Number of items carrying code `c` in a list of items. -/
def countItems (c : String) (items : List Item) : Nat :=
  items.countP (fun it => it.code = c)

/-- Total count recorded for key `c` in a counter association list. -/
def sumFor (c : String) (l : List (String × Nat)) : Nat :=
  (l.map (fun p => if p.1 = c then p.2 else 0)).sum

/-- Count-weighted sum of `f` over a counter association list. -/
def wsum (f : String → ℚ) (l : List (String × Nat)) : ℚ :=
  (l.map (fun p => (p.2 : ℚ) * f p.1)).sum

/-- The unit weight the inventory records for code `c` (0 if absent). -/
def weightOf (inv : Inventory) (c : String) : ℚ :=
  match invFind inv c with
  | none => 0
  | some it => it.weight

/-- Total number of items carrying code `c` across a list of bins. -/
def totalCount (c : String) (bins : List Bin) : Nat :=
  (bins.map (fun b => countItems c b.items)).sum

/-- Sum of the unit weights of a list of items. -/
def itemsWeight (items : List Item) : ℚ :=
  (items.map Item.weight).sum

/-- A bin's cached weight agrees with the weights of its items. -/
def binWF (b : Bin) : Prop := b.weight = itemsWeight b.items

/-! ### Spec-side packer, for the refinement claim -/

/-- Spec-side sort (§4.3 step 1, from the spec's words): "Sort the unrolled
items by weight descending. Tie-break: stable — items of equal weight retain
their relative order", realised by the (stable) merge sort. -/
def sortSpec (items : List Item) : List Item :=
  items.mergeSort (fun a b => decide (b.weight ≤ a.weight))

/-- Spec-side placement (§4.3 step 3, from the spec's words): "scan bins in
creation order and place the item in the first bin whose remaining capacity
(capacity − current bin weight) is ≥ the item's weight. If no such bin
exists, open a new bin (appended at the end of the bin list)". -/
def placeSpec (capacity : ℚ) (item : Item) (bins : List Bin) : List Bin :=
  match bins.findIdx? (fun b => decide (item.weight ≤ capacity - b.weight)) with
  | some i => bins.set i ((bins.getD i Bin.empty).add item)
  | none => bins ++ [Bin.empty.add item]

/-- Spec-side packer (§4.3, from the spec's words): reject if any single
item's weight exceeds capacity, otherwise fold the first-fit placement over
the stably-descending-sorted items. -/
def ffd_spec (items : List Item) (capacity : ℚ) : Except PickErr (List Bin) :=
  if items.any (fun it => decide (capacity < it.weight)) then
    .error .itemExceedsCapacity
  else
    .ok ((sortSpec items).foldl (fun bins it => placeSpec capacity it bins) [])

/-! ### Packer loop lemmas -/

/-- If some item in the list exceeds the capacity, the pack loop raises,
whatever bins are open. -/
theorem packLoop_err (cap : ℚ) (its : List Item)
    (h : ∃ it ∈ its, cap < it.weight) :
    ∀ bins, packLoop cap bins its = .error .itemExceedsCapacity := by
  induction its with
  | nil => simp at h
  | cons a rest ih =>
    intro bins
    by_cases ha : cap < a.weight
    · simp [packLoop, ha]
    · rcases h with ⟨it, hmem, hw⟩
      rcases List.mem_cons.mp hmem with rfl | hmem'
      · exact absurd hw ha
      · simp only [packLoop, if_neg ha]
        exact ih ⟨it, hmem', hw⟩ _

/-- If no item exceeds the capacity, the pack loop is the fold of the
first-fit placement step. -/
theorem packLoop_ok (cap : ℚ) (its : List Item)
    (h : ∀ it ∈ its, ¬ cap < it.weight) :
    ∀ bins, packLoop cap bins its =
      .ok (its.foldl (fun bs it => placeItem cap it bs) bins) := by
  induction its with
  | nil => intro bins; rfl
  | cons a rest ih =>
    intro bins
    rw [packLoop, if_neg (h a (List.mem_cons_self a rest)), List.foldl_cons]
    exact ih (fun it hit => h it (List.mem_cons_of_mem a hit)) _

/-! ### Unroll lemmas -/

/-- If some line item's code is absent from the inventory, unrolling fails
with `unknownItemCode` for a missing code. -/
theorem unroll_unknown (inv : Inventory) (lis : List LineItem)
    (h : ∃ li ∈ lis, invFind inv li.code = none) :
    ∃ c, invFind inv c = none ∧
      unroll inv lis = .error (.unknownItemCode c) := by
  induction lis with
  | nil => simp at h
  | cons li rest ih =>
    cases hl : invFind inv li.code with
    | none => exact ⟨li.code, hl, by rw [unroll, hl]⟩
    | some item =>
      have hrest : ∃ li' ∈ rest, invFind inv li'.code = none := by
        rcases h with ⟨li', hmem, h'⟩
        rcases List.mem_cons.mp hmem with rfl | hmem'
        · rw [hl] at h'; cases h'
        · exact ⟨li', hmem', h'⟩
      rcases ih hrest with ⟨c, hc, herr⟩
      exact ⟨c, hc, by rw [unroll, hl, herr]⟩

/-- Line items with non-positive quantity contribute nothing to the unroll
(as long as their codes resolve): filtering them out changes nothing. -/
theorem unroll_filter_pos (inv : Inventory) (lis : List LineItem)
    (h : ∀ li ∈ lis, li.qty ≤ 0 → invFind inv li.code ≠ none) :
    unroll inv lis =
      unroll inv (lis.filter (fun li => decide (0 < li.qty))) := by
  induction lis with
  | nil => rfl
  | cons li rest ih =>
    have ih' := ih (fun li' h' hq => h li' (List.mem_cons_of_mem li h') hq)
    by_cases hq : 0 < li.qty
    · rw [List.filter_cons_of_pos (by simpa using hq)]
      rw [unroll, unroll, ih']
    · rw [List.filter_cons_of_neg (by simpa using hq)]
      have hne : invFind inv li.code ≠ none :=
        h li (List.mem_cons_self li rest) (by omega)
      cases hl : invFind inv li.code with
      | none => exact absurd hl hne
      | some item =>
        rw [unroll, hl, ← ih']
        have hz : li.qty.toNat = 0 := by omega
        cases hr : unroll inv rest with
        | error e => rfl
        | ok items => simp [hz]

/-! ### Counter lemmas -/

theorem sumFor_bumpCode (c c' : String) (l : List (String × Nat)) :
    sumFor c' (bumpCode c l) = sumFor c' l + (if c = c' then 1 else 0) := by
  induction l with
  | nil =>
    by_cases hc : c = c' <;> simp [bumpCode, sumFor, hc]
  | cons p rest ih =>
    obtain ⟨k, n⟩ := p
    by_cases hk : k = c
    · subst hk
      simp only [bumpCode, if_pos rfl, sumFor, List.map_cons, List.sum_cons]
      by_cases hc : k = c' <;> simp [hc] <;> omega
    · simp only [bumpCode, if_neg hk, sumFor, List.map_cons, List.sum_cons]
      simp only [sumFor] at ih
      rw [ih]
      omega

theorem wsum_bumpCode (f : String → ℚ) (c : String)
    (l : List (String × Nat)) :
    wsum f (bumpCode c l) = wsum f l + f c := by
  induction l with
  | nil => simp [bumpCode, wsum]
  | cons p rest ih =>
    obtain ⟨k, n⟩ := p
    by_cases hk : k = c
    · subst hk
      simp only [bumpCode, eq_self_iff_true, if_true, wsum, List.map_cons,
        List.sum_cons]
      push_cast
      ring
    · simp only [bumpCode, if_neg hk, wsum, List.map_cons, List.sum_cons]
      simp only [wsum] at ih
      rw [ih]
      ring

theorem keys_bumpCode (c : String) (l : List (String × Nat)) :
    (bumpCode c l).map Prod.fst =
      if c ∈ l.map Prod.fst then l.map Prod.fst
      else l.map Prod.fst ++ [c] := by
  induction l with
  | nil => simp [bumpCode]
  | cons p rest ih =>
    obtain ⟨k, n⟩ := p
    by_cases hk : k = c
    · subst hk
      simp [bumpCode]
    · have hck : ¬ c = k := fun h => hk h.symm
      simp only [bumpCode, if_neg hk, List.map_cons, ih]
      by_cases hc : c ∈ rest.map Prod.fst
      · simp [List.mem_cons, hc]
      · simp [List.mem_cons, hc, hck, List.cons_append]

theorem mem_bumpCode (c : String) (l : List (String × Nat))
    (p : String × Nat) (h : p ∈ bumpCode c l) : p.1 = c ∨ p ∈ l := by
  induction l with
  | nil =>
    simp only [bumpCode, List.mem_singleton] at h
    exact Or.inl (by rw [h])
  | cons q rest ih =>
    obtain ⟨k, n⟩ := q
    by_cases hk : k = c
    · simp only [bumpCode, if_pos hk, List.mem_cons] at h
      rcases h with hp | hp
      · exact Or.inl (by rw [hp]; exact hk)
      · exact Or.inr (List.mem_cons_of_mem _ hp)
    · simp only [bumpCode, if_neg hk, List.mem_cons] at h
      rcases h with hp | hp
      · exact Or.inr (by rw [hp]; exact List.mem_cons_self _ _)
      · rcases ih hp with h' | h'
        · exact Or.inl h'
        · exact Or.inr (List.mem_cons_of_mem _ h')

theorem pos_bumpCode (c : String) (l : List (String × Nat))
    (h : ∀ p ∈ l, 1 ≤ p.2) : ∀ p ∈ bumpCode c l, 1 ≤ p.2 := by
  induction l with
  | nil =>
    intro p hp
    simp only [bumpCode, List.mem_singleton] at hp
    rw [hp]
  | cons q rest ih =>
    obtain ⟨k, n⟩ := q
    intro p hp
    by_cases hk : k = c
    · simp only [bumpCode, if_pos hk, List.mem_cons] at hp
      rcases hp with hp | hp
      · rw [hp]; omega
      · exact h p (List.mem_cons_of_mem _ hp)
    · simp only [bumpCode, if_neg hk, List.mem_cons] at hp
      rcases hp with hp | hp
      · rw [hp]; exact h _ (List.mem_cons_self _ _)
      · exact ih (fun q hq => h q (List.mem_cons_of_mem _ hq)) p hp

theorem bumpCode_ne_nil (c : String) (l : List (String × Nat)) :
    bumpCode c l ≠ [] := by
  cases l with
  | nil => simp [bumpCode]
  | cons q rest =>
    obtain ⟨k, n⟩ := q
    by_cases hk : k = c
    · simp [bumpCode, hk]
    · simp [bumpCode, hk]

theorem sumFor_counter_foldl (c' : String) (codes : List String) :
    ∀ acc, sumFor c' (codes.foldl (fun a s => bumpCode s a) acc) =
      sumFor c' acc + codes.countP (fun s => decide (s = c')) := by
  induction codes with
  | nil => intro acc; simp
  | cons s rest ih =>
    intro acc
    rw [List.foldl_cons, ih, sumFor_bumpCode, List.countP_cons]
    by_cases hs : s = c' <;> simp [hs] <;> omega

theorem wsum_counter_foldl (f : String → ℚ) (codes : List String) :
    ∀ acc, wsum f (codes.foldl (fun a s => bumpCode s a) acc) =
      wsum f acc + (codes.map f).sum := by
  induction codes with
  | nil => intro acc; simp
  | cons s rest ih =>
    intro acc
    rw [List.foldl_cons, ih, wsum_bumpCode, List.map_cons, List.sum_cons]
    ring

theorem mem_counter_foldl (codes : List String) :
    ∀ acc (p : String × Nat),
      p ∈ codes.foldl (fun a s => bumpCode s a) acc →
        p ∈ acc ∨ p.1 ∈ codes := by
  induction codes with
  | nil => intro acc p h; exact Or.inl h
  | cons s rest ih =>
    intro acc p h
    rw [List.foldl_cons] at h
    rcases ih _ p h with h' | h'
    · rcases mem_bumpCode s acc p h' with h'' | h''
      · exact Or.inr (by simp [h''])
      · exact Or.inl h''
    · exact Or.inr (List.mem_cons_of_mem _ h')

theorem nodup_counter_foldl (codes : List String) :
    ∀ acc, ((acc : List (String × Nat)).map Prod.fst).Nodup →
      ((codes.foldl (fun a s => bumpCode s a) acc).map Prod.fst).Nodup := by
  induction codes with
  | nil => intro acc h; exact h
  | cons s rest ih =>
    intro acc h
    rw [List.foldl_cons]
    refine ih _ ?_
    rw [keys_bumpCode]
    by_cases hs : s ∈ acc.map Prod.fst
    · simpa [hs] using h
    · rw [if_neg hs]
      rw [List.nodup_append]
      exact ⟨h, List.nodup_singleton s,
        fun a ha ha' => hs (by rwa [List.mem_singleton.mp ha'] at ha)⟩

theorem pos_counter_foldl (codes : List String) :
    ∀ acc, (∀ p ∈ (acc : List (String × Nat)), 1 ≤ p.2) →
      ∀ p ∈ codes.foldl (fun a s => bumpCode s a) acc, 1 ≤ p.2 := by
  induction codes with
  | nil => intro acc h; exact h
  | cons s rest ih =>
    intro acc h
    rw [List.foldl_cons]
    exact ih _ (pos_bumpCode s acc h)

theorem ne_nil_counter_foldl (codes : List String) :
    ∀ acc, acc ≠ ([] : List (String × Nat)) →
      codes.foldl (fun a s => bumpCode s a) acc ≠ [] := by
  induction codes with
  | nil => intro acc h; exact h
  | cons s rest ih =>
    intro acc _
    rw [List.foldl_cons]
    exact ih _ (bumpCode_ne_nil s acc)

theorem sumFor_counter (c : String) (codes : List String) :
    sumFor c (counter codes) = codes.countP (fun s => decide (s = c)) := by
  rw [counter, sumFor_counter_foldl]
  simp [sumFor]

theorem wsum_counter (f : String → ℚ) (codes : List String) :
    wsum f (counter codes) = (codes.map f).sum := by
  rw [counter, wsum_counter_foldl]
  simp [wsum]

theorem counter_keys_mem (codes : List String) (p : String × Nat)
    (h : p ∈ counter codes) : p.1 ∈ codes := by
  rcases mem_counter_foldl codes [] p h with h' | h'
  · cases h'
  · exact h'

theorem counter_keys_nodup (codes : List String) :
    ((counter codes).map Prod.fst).Nodup :=
  nodup_counter_foldl codes [] (by simp)

theorem counter_pos (codes : List String) :
    ∀ p ∈ counter codes, 1 ≤ p.2 :=
  pos_counter_foldl codes [] (by simp)

theorem counter_ne_nil (codes : List String) (h : codes ≠ []) :
    counter codes ≠ [] := by
  cases codes with
  | nil => exact absurd rfl h
  | cons s rest =>
    rw [counter, List.foldl_cons]
    exact ne_nil_counter_foldl rest _ (bumpCode_ne_nil s [])

/-! ### Placement and pack-loop invariants -/

theorem placeItem_pred (P : Item → Prop) (cap : ℚ) (it : Item)
    (bins : List Bin) (hb : ∀ b ∈ bins, ∀ x ∈ b.items, P x) (hit : P it) :
    ∀ b ∈ placeItem cap it bins, ∀ x ∈ b.items, P x := by
  induction bins with
  | nil =>
    intro b hbmem x hx
    simp only [placeItem, List.mem_singleton] at hbmem
    rw [hbmem] at hx
    simp only [Bin.add, Bin.empty, List.nil_append, List.mem_singleton] at hx
    rw [hx]
    exact hit
  | cons b0 rest ih =>
    intro b hbmem x hx
    by_cases hfit : it.weight ≤ cap - b0.weight
    · simp only [placeItem, if_pos hfit, List.mem_cons] at hbmem
      rcases hbmem with hb' | hb'
      · rw [hb'] at hx
        simp only [Bin.add, List.mem_append, List.mem_singleton] at hx
        rcases hx with hx | hx
        · exact hb b0 (List.mem_cons_self _ _) x hx
        · rw [hx]; exact hit
      · exact hb b (List.mem_cons_of_mem _ hb') x hx
    · simp only [placeItem, if_neg hfit, List.mem_cons] at hbmem
      rcases hbmem with hb' | hb'
      · exact hb b0 (List.mem_cons_self _ _) x (hb' ▸ hx)
      · exact ih (fun b'' h'' => hb b'' (List.mem_cons_of_mem _ h'')) b hb' x hx

theorem placeItem_ne_nil (cap : ℚ) (it : Item) (bins : List Bin)
    (hb : ∀ b ∈ bins, b.items ≠ []) :
    ∀ b ∈ placeItem cap it bins, b.items ≠ [] := by
  induction bins with
  | nil =>
    intro b hbmem
    simp only [placeItem, List.mem_singleton] at hbmem
    rw [hbmem]
    simp [Bin.add, Bin.empty]
  | cons b0 rest ih =>
    intro b hbmem
    by_cases hfit : it.weight ≤ cap - b0.weight
    · simp only [placeItem, if_pos hfit, List.mem_cons] at hbmem
      rcases hbmem with hb' | hb'
      · rw [hb']; simp [Bin.add]
      · exact hb b (List.mem_cons_of_mem _ hb')
    · simp only [placeItem, if_neg hfit, List.mem_cons] at hbmem
      rcases hbmem with hb' | hb'
      · exact hb' ▸ hb b0 (List.mem_cons_self _ _)
      · exact ih (fun b'' h'' => hb b'' (List.mem_cons_of_mem _ h'')) b hb'

theorem placeItem_binWF (cap : ℚ) (it : Item) (bins : List Bin)
    (hb : ∀ b ∈ bins, binWF b) :
    ∀ b ∈ placeItem cap it bins, binWF b := by
  induction bins with
  | nil =>
    intro b hbmem
    simp only [placeItem, List.mem_singleton] at hbmem
    rw [hbmem]
    simp [binWF, Bin.add, Bin.empty, itemsWeight]
  | cons b0 rest ih =>
    intro b hbmem
    by_cases hfit : it.weight ≤ cap - b0.weight
    · simp only [placeItem, if_pos hfit, List.mem_cons] at hbmem
      rcases hbmem with hb' | hb'
      · rw [hb']
        have h0 := hb b0 (List.mem_cons_self _ _)
        simp only [binWF, Bin.add, itemsWeight, List.map_append,
          List.sum_append, List.map_cons, List.map_nil, List.sum_cons,
          List.sum_nil] at *
        rw [h0]
        ring
      · exact hb b (List.mem_cons_of_mem _ hb')
    · simp only [placeItem, if_neg hfit, List.mem_cons] at hbmem
      rcases hbmem with hb' | hb'
      · exact hb' ▸ hb b0 (List.mem_cons_self _ _)
      · exact ih (fun b'' h'' => hb b'' (List.mem_cons_of_mem _ h'')) b hb'

theorem placeItem_le_cap (cap : ℚ) (it : Item) (bins : List Bin)
    (hb : ∀ b ∈ bins, b.weight ≤ cap) (hw : it.weight ≤ cap) :
    ∀ b ∈ placeItem cap it bins, b.weight ≤ cap := by
  induction bins with
  | nil =>
    intro b hbmem
    simp only [placeItem, List.mem_singleton] at hbmem
    rw [hbmem]
    simp only [Bin.add, Bin.empty]
    linarith
  | cons b0 rest ih =>
    intro b hbmem
    by_cases hfit : it.weight ≤ cap - b0.weight
    · simp only [placeItem, if_pos hfit, List.mem_cons] at hbmem
      rcases hbmem with hb' | hb'
      · rw [hb']
        simp only [Bin.add]
        linarith
      · exact hb b (List.mem_cons_of_mem _ hb')
    · simp only [placeItem, if_neg hfit, List.mem_cons] at hbmem
      rcases hbmem with hb' | hb'
      · exact hb' ▸ hb b0 (List.mem_cons_self _ _)
      · exact ih (fun b'' h'' => hb b'' (List.mem_cons_of_mem _ h'')) b hb'

theorem placeItem_count (c : String) (cap : ℚ) (it : Item)
    (bins : List Bin) :
    totalCount c (placeItem cap it bins) =
      totalCount c bins + (if it.code = c then 1 else 0) := by
  induction bins with
  | nil =>
    by_cases h : it.code = c <;>
      simp [placeItem, totalCount, countItems, Bin.add, Bin.empty,
        List.countP_cons, h]
  | cons b0 rest ih =>
    by_cases hfit : it.weight ≤ cap - b0.weight
    · simp only [placeItem, if_pos hfit, totalCount, List.map_cons,
        List.sum_cons, Bin.add, countItems, List.countP_append,
        List.countP_cons, List.countP_nil]
      by_cases h : it.code = c <;> simp [h] <;> omega
    · simp only [placeItem, if_neg hfit, totalCount, List.map_cons,
        List.sum_cons]
      simp only [totalCount] at ih
      rw [ih]
      omega

theorem packLoop_pred (P : Item → Prop) (cap : ℚ) (its : List Item) :
    ∀ bins bins', packLoop cap bins its = .ok bins' →
      (∀ b ∈ bins, ∀ x ∈ b.items, P x) → (∀ x ∈ its, P x) →
      ∀ b ∈ bins', ∀ x ∈ b.items, P x := by
  induction its with
  | nil =>
    intro bins bins' h hb _
    simp only [packLoop, Except.ok.injEq] at h
    rw [← h]
    exact hb
  | cons a rest ih =>
    intro bins bins' h hb hits
    simp only [packLoop] at h
    by_cases ha : cap < a.weight
    · rw [if_pos ha] at h; cases h
    · rw [if_neg ha] at h
      exact ih _ _ h
        (placeItem_pred P cap a bins hb (hits a (List.mem_cons_self _ _)))
        (fun x hx => hits x (List.mem_cons_of_mem _ hx))

theorem packLoop_ne_nil (cap : ℚ) (its : List Item) :
    ∀ bins bins', packLoop cap bins its = .ok bins' →
      (∀ b ∈ bins, b.items ≠ []) → ∀ b ∈ bins', b.items ≠ [] := by
  induction its with
  | nil =>
    intro bins bins' h hb
    simp only [packLoop, Except.ok.injEq] at h
    rw [← h]
    exact hb
  | cons a rest ih =>
    intro bins bins' h hb
    simp only [packLoop] at h
    by_cases ha : cap < a.weight
    · rw [if_pos ha] at h; cases h
    · rw [if_neg ha] at h
      exact ih _ _ h (placeItem_ne_nil cap a bins hb)

theorem packLoop_binWF (cap : ℚ) (its : List Item) :
    ∀ bins bins', packLoop cap bins its = .ok bins' →
      (∀ b ∈ bins, binWF b) → ∀ b ∈ bins', binWF b := by
  induction its with
  | nil =>
    intro bins bins' h hb
    simp only [packLoop, Except.ok.injEq] at h
    rw [← h]
    exact hb
  | cons a rest ih =>
    intro bins bins' h hb
    simp only [packLoop] at h
    by_cases ha : cap < a.weight
    · rw [if_pos ha] at h; cases h
    · rw [if_neg ha] at h
      exact ih _ _ h (placeItem_binWF cap a bins hb)

theorem packLoop_le_cap (cap : ℚ) (its : List Item) :
    ∀ bins bins', packLoop cap bins its = .ok bins' →
      (∀ b ∈ bins, b.weight ≤ cap) → ∀ b ∈ bins', b.weight ≤ cap := by
  induction its with
  | nil =>
    intro bins bins' h hb
    simp only [packLoop, Except.ok.injEq] at h
    rw [← h]
    exact hb
  | cons a rest ih =>
    intro bins bins' h hb
    simp only [packLoop] at h
    by_cases ha : cap < a.weight
    · rw [if_pos ha] at h; cases h
    · rw [if_neg ha] at h
      exact ih _ _ h (placeItem_le_cap cap a bins hb (not_lt.mp ha))

theorem packLoop_count (c : String) (cap : ℚ) (its : List Item) :
    ∀ bins bins', packLoop cap bins its = .ok bins' →
      totalCount c bins' = totalCount c bins + countItems c its := by
  induction its with
  | nil =>
    intro bins bins' h
    simp only [packLoop, Except.ok.injEq] at h
    rw [← h]
    simp [countItems]
  | cons a rest ih =>
    intro bins bins' h
    simp only [packLoop] at h
    by_cases ha : cap < a.weight
    · rw [if_pos ha] at h; cases h
    · rw [if_neg ha] at h
      rw [ih _ _ h, placeItem_count]
      simp only [countItems, List.countP_cons]
      by_cases hc : a.code = c <;> simp [hc] <;> omega

/-! ### Inventory and unroll lemmas -/

theorem invFind_mem (inv : Inventory) (c : String) (it : Item)
    (h : invFind inv c = some it) : (c, it) ∈ inv := by
  induction inv with
  | nil => cases h
  | cons p rest ih =>
    obtain ⟨k, v⟩ := p
    by_cases hk : k = c
    · simp only [invFind, if_pos hk] at h
      injection h with h'
      rw [← hk, ← h']
      exact List.mem_cons_self _ _
    · simp only [invFind, if_neg hk] at h
      exact List.mem_cons_of_mem _ (ih h)

theorem unroll_self (inv : Inventory) (hWF : invWF inv)
    (lis : List LineItem) :
    ∀ items, unroll inv lis = .ok items →
      ∀ x ∈ items, invFind inv x.code = some x := by
  induction lis with
  | nil =>
    intro items h
    simp only [unroll, Except.ok.injEq] at h
    rw [← h]
    intro x hx
    cases hx
  | cons li rest ih =>
    intro items h
    cases hl : invFind inv li.code with
    | none => rw [unroll, hl] at h; cases h
    | some item =>
      cases hr : unroll inv rest with
      | error e => rw [unroll, hl, hr] at h; cases h
      | ok items' =>
        rw [unroll, hl, hr] at h
        simp only [Except.ok.injEq] at h
        intro x hx
        rw [← h] at hx
        rcases List.mem_append.mp hx with hx' | hx'
        · have hxi : x = item := List.eq_of_mem_replicate hx'
          have hcode : item.code = li.code :=
            hWF (li.code, item) (invFind_mem inv li.code item hl)
          rw [hxi, hcode]
          exact hl
        · exact ih items' hr x hx'

theorem countP_replicate (p : Item → Bool) (n : Nat) (x : Item) :
    (List.replicate n x).countP p = if p x then n else 0 := by
  induction n with
  | zero => simp
  | succ n ih =>
    rw [List.replicate_succ, List.countP_cons, ih]
    by_cases h : p x <;> simp [h]

theorem unroll_count (inv : Inventory) (hWF : invWF inv) (c : String)
    (lis : List LineItem) :
    ∀ items, unroll inv lis = .ok items →
      countItems c items =
        (lis.map (fun li => if li.code = c then li.qty.toNat else 0)).sum := by
  induction lis with
  | nil =>
    intro items h
    simp only [unroll, Except.ok.injEq] at h
    rw [← h]
    simp [countItems]
  | cons li rest ih =>
    intro items h
    cases hl : invFind inv li.code with
    | none => rw [unroll, hl] at h; cases h
    | some item =>
      cases hr : unroll inv rest with
      | error e => rw [unroll, hl, hr] at h; cases h
      | ok items' =>
        rw [unroll, hl, hr] at h
        simp only [Except.ok.injEq] at h
        rw [← h]
        have hcode : item.code = li.code :=
          hWF (li.code, item) (invFind_mem inv li.code item hl)
        simp only [countItems, List.countP_append, List.map_cons,
          List.sum_cons]
        rw [countP_replicate]
        have := ih items' hr
        simp only [countItems] at this
        rw [this, hcode]
        by_cases hc : li.code = c <;> simp [hc]

/-! ### Reroll lemmas -/

theorem boxWeight_counter (inv : Inventory) (l : List (String × Nat))
    (h : ∀ p ∈ l, ∃ it, invFind inv p.1 = some it) :
    boxWeight inv (l.map (fun p => ⟨p.1, (p.2 : Int)⟩)) =
      .ok (wsum (weightOf inv) l) := by
  induction l with
  | nil => simp [boxWeight, wsum]
  | cons p rest ih =>
    obtain ⟨it, hfind⟩ := h p (List.mem_cons_self _ _)
    simp only [List.map_cons, boxWeight, hfind]
    rw [ih (fun q hq => h q (List.mem_cons_of_mem _ hq))]
    simp only [wsum, List.map_cons, List.sum_cons, Except.ok.injEq]
    rw [weightOf, hfind]
    push_cast
    ring

theorem rerollBins_numbers (inv : Inventory) (bins : List Bin) :
    ∀ i boxes, rerollBins inv i bins = .ok boxes →
      boxes.map Box.number = List.range' i bins.length := by
  induction bins with
  | nil =>
    intro i boxes h
    simp only [rerollBins, Except.ok.injEq] at h
    rw [← h]
    rfl
  | cons b rest ih =>
    intro i boxes h
    cases hw : boxWeight inv (rerollLineItems b) with
    | error e => rw [rerollBins, hw] at h; cases h
    | ok w =>
      cases hr : rerollBins inv (i + 1) rest with
      | error e => rw [rerollBins, hw, hr] at h; cases h
      | ok boxes' =>
        rw [rerollBins, hw, hr] at h
        simp only [Except.ok.injEq] at h
        rw [← h, List.length_cons, List.range'_succ, List.map_cons]
        rw [ih (i + 1) boxes' hr]

theorem rerollBins_boxes (inv : Inventory) (bins : List Bin) :
    ∀ i boxes, rerollBins inv i bins = .ok boxes →
      boxes.map Box.line_items = bins.map rerollLineItems ∧
      ∀ bx ∈ boxes, ∃ b ∈ bins, bx.line_items = rerollLineItems b ∧
        boxWeight inv (rerollLineItems b) = .ok bx.weight := by
  induction bins with
  | nil =>
    intro i boxes h
    simp only [rerollBins, Except.ok.injEq] at h
    rw [← h]
    exact ⟨rfl, by intro bx hbx; cases hbx⟩
  | cons b rest ih =>
    intro i boxes h
    cases hw : boxWeight inv (rerollLineItems b) with
    | error e => rw [rerollBins, hw] at h; cases h
    | ok w =>
      cases hr : rerollBins inv (i + 1) rest with
      | error e => rw [rerollBins, hw, hr] at h; cases h
      | ok boxes' =>
        rw [rerollBins, hw, hr] at h
        simp only [Except.ok.injEq] at h
        obtain ⟨ih1, ih2⟩ := ih (i + 1) boxes' hr
        constructor
        · rw [← h, List.map_cons, List.map_cons, ih1]
        · intro bx hbx
          rw [← h, List.mem_cons] at hbx
          rcases hbx with hbx | hbx
          · exact ⟨b, List.mem_cons_self _ _, by rw [hbx], by rw [hbx]; exact hw⟩
          · obtain ⟨b', hb', h1, h2⟩ := ih2 bx hbx
            exact ⟨b', List.mem_cons_of_mem _ hb', h1, h2⟩

/-! ### Stable-sort agreement and placement agreement -/

theorem orderedInsert_middle (a : Item) (l₂ : List Item)
    (h2 : ∀ b ∈ l₂, itemGE a b) :
    ∀ l₁, (∀ b ∈ l₁, ¬ itemGE a b) →
      List.orderedInsert itemGE a (l₁ ++ l₂) = l₁ ++ a :: l₂ := by
  intro l₁
  induction l₁ with
  | nil =>
    intro _
    cases l₂ with
    | nil => rfl
    | cons c l₂' =>
      simp only [List.nil_append, List.orderedInsert,
        if_pos (h2 c (List.mem_cons_self _ _))]
  | cons b l₁' ih =>
    intro h1
    simp only [List.cons_append, List.orderedInsert,
      if_neg (h1 b (List.mem_cons_self _ _)), List.append_eq]
    rw [ih (fun x hx => h1 x (List.mem_cons_of_mem _ hx))]

theorem sortSpec_eq_sortDesc (l : List Item) : sortSpec l = sortDesc l := by
  have htrans : ∀ (x y z : Item),
      (fun a b : Item => decide (b.weight ≤ a.weight)) x y →
      (fun a b : Item => decide (b.weight ≤ a.weight)) y z →
      (fun a b : Item => decide (b.weight ≤ a.weight)) x z := by
    intro x y z hxy hyz
    simp only [decide_eq_true_eq] at *
    exact le_trans hyz hxy
  have htotal : ∀ (x y : Item),
      ((fun a b : Item => decide (b.weight ≤ a.weight)) x y ||
        (fun a b : Item => decide (b.weight ≤ a.weight)) y x) = true := by
    intro x y
    simp only [Bool.or_eq_true, decide_eq_true_eq]
    exact le_total y.weight x.weight
  unfold sortSpec sortDesc
  induction l with
  | nil => simp
  | cons a l ih =>
    obtain ⟨l₁, l₂, h1, h2, h3⟩ :=
      @List.mergeSort_cons Item (fun a b : Item => decide (b.weight ≤ a.weight))
        htrans htotal a l
    have hsorted :=
      @List.sorted_mergeSort Item (fun a b : Item => decide (b.weight ≤ a.weight))
        htrans htotal (a :: l)
    rw [h1] at hsorted
    have h2' : ∀ b ∈ l₂, itemGE a b := by
      intro b hb
      have hpair := (List.pairwise_append.mp hsorted).2.1
      have := (List.pairwise_cons.mp hpair).1 b hb
      exact of_decide_eq_true this
    have h3' : ∀ b ∈ l₁, ¬ itemGE a b := by
      intro b hb hge
      have hge' : b.weight ≤ a.weight := hge
      have := h3 b hb
      rw [decide_eq_true hge'] at this
      simp at this
    rw [h1, List.insertionSort, ← ih, h2]
    exact (orderedInsert_middle a l₂ h2' l₁ h3').symm

theorem placeSpec_eq_placeItem (cap : ℚ) (it : Item) :
    ∀ bins, placeSpec cap it bins = placeItem cap it bins := by
  intro bins
  induction bins with
  | nil => rfl
  | cons b bs ih =>
    by_cases hfit : it.weight ≤ cap - b.weight
    · simp only [placeSpec, List.findIdx?_cons, decide_eq_true hfit, if_true,
        List.set_cons_zero, List.getD_cons_zero, placeItem, if_pos hfit]
    · have hfalse : decide (it.weight ≤ cap - b.weight) = false :=
        decide_eq_false hfit
      simp only [placeSpec, List.findIdx?_cons, hfalse, Bool.false_eq_true,
        if_false, List.findIdx?_succ, placeItem, if_neg hfit]
      simp only [placeSpec] at ih
      cases hfi : bs.findIdx? (fun b => decide (it.weight ≤ cap - b.weight)) with
      | none =>
        rw [hfi] at ih
        simp only [Option.map_none', List.cons_append]
        rw [← ih]
      | some j =>
        rw [hfi] at ih
        simp only [Option.map_some', List.set_cons_succ, List.getD_cons_succ]
        rw [← ih]

/-! ### Claim theorems: error handling and concrete behaviour -/

/-- C4. Single-item rejection: if any item in the (successfully) unrolled
sequence weighs strictly more than the capacity, the packer fails with
`itemExceedsCapacity`, and `make_pickship` produces no manifest, only that
same error. -/
theorem single_item_rejection (order : Order) (inv : Inventory) (cap : ℚ)
    (items : List Item) (hu : unroll inv order.line_items = .ok items)
    (hex : ∃ it ∈ items, cap < it.weight) :
    first_fit_descending_pack items cap = .error .itemExceedsCapacity ∧
      make_pickship order inv cap = .error .itemExceedsCapacity := by
  have hex' : ∃ it ∈ sortDesc items, cap < it.weight := by
    rcases hex with ⟨it, hm, hw⟩
    exact ⟨it, (List.mem_insertionSort itemGE).mpr hm, hw⟩
  have hpack : first_fit_descending_pack items cap =
      .error .itemExceedsCapacity := packLoop_err cap (sortDesc items) hex' []
  exact ⟨hpack, by simp [make_pickship, hu, hpack]⟩

theorem single_item_rejection_witness :
    first_fit_descending_pack [⟨"a", "n", 5⟩] 3 = .error .itemExceedsCapacity ∧
      make_pickship ⟨1, "c", [⟨"a", 1⟩]⟩ [("a", ⟨"a", "n", 5⟩)] 3 =
        .error .itemExceedsCapacity :=
  single_item_rejection ⟨1, "c", [⟨"a", 1⟩]⟩ [("a", ⟨"a", "n", 5⟩)] 3
    [⟨"a", "n", 5⟩] (by decide) ⟨⟨"a", "n", 5⟩, by decide, by decide⟩

/-- C5. Unknown-code fail-fast: an order containing a line item whose code
is absent from the inventory makes `make_pickship` fail with
`unknownItemCode` (for a missing code); no manifest is produced, for any
capacity. -/
theorem unknown_code_failfast (order : Order) (inv : Inventory) (cap : ℚ)
    (h : ∃ li ∈ order.line_items, invFind inv li.code = none) :
    ∃ c, invFind inv c = none ∧
      make_pickship order inv cap = .error (.unknownItemCode c) := by
  rcases unroll_unknown inv order.line_items h with ⟨c, hc, herr⟩
  exact ⟨c, hc, by simp [make_pickship, herr]⟩

theorem unknown_code_failfast_witness :
    ∃ c, invFind [] c = none ∧
      make_pickship ⟨2, "d", [⟨"x", 1⟩]⟩ [] 7 = .error (.unknownItemCode c) :=
  unknown_code_failfast ⟨2, "d", [⟨"x", 1⟩]⟩ [] 7 ⟨⟨"x", 1⟩, by decide, rfl⟩

/-- C6, counterexample: with capacity `0 ≤ 0` and an empty order, the code
does not fail with any error — it returns an empty manifest, so no
`InvalidCapacity` rejection exists. -/
theorem invalid_capacity_counterexample :
    make_pickship ⟨1, "CUST", []⟩ [] 0 = .ok ⟨1, [], 0⟩ := rfl

/-- C6, amended: the code has no capacity validation. With capacity ≤ 0, an
order that unrolls to at least one item of positive weight fails — but with
`itemExceedsCapacity`, not an `InvalidCapacity` error (which does not
exist in the code); an empty unroll succeeds. -/
theorem invalid_capacity_amended (order : Order) (inv : Inventory) (cap : ℚ)
    (items : List Item) (hcap : cap ≤ 0)
    (hu : unroll inv order.line_items = .ok items) (hne : items ≠ [])
    (hpos : ∀ it ∈ items, 0 < it.weight) :
    make_pickship order inv cap = .error .itemExceedsCapacity := by
  have hex : ∃ it ∈ sortDesc items, cap < it.weight := by
    cases items with
    | nil => exact absurd rfl hne
    | cons a rest =>
      refine ⟨a, (List.mem_insertionSort itemGE).mpr (List.mem_cons_self a rest), ?_⟩
      exact lt_of_le_of_lt hcap (hpos a (List.mem_cons_self a rest))
  have hpack : first_fit_descending_pack items cap =
      .error .itemExceedsCapacity := packLoop_err cap (sortDesc items) hex []
  simp [make_pickship, hu, hpack]

theorem invalid_capacity_amended_witness :
    make_pickship ⟨1, "c", [⟨"a", 1⟩]⟩ [("a", ⟨"a", "n", 1⟩)] 0 =
      .error .itemExceedsCapacity :=
  invalid_capacity_amended ⟨1, "c", [⟨"a", 1⟩]⟩ [("a", ⟨"a", "n", 1⟩)] 0
    [⟨"a", "n", 1⟩] (by decide) (by decide) (by decide) (by decide)

/-- C7, counterexample: a line item with quantity 0 is not rejected — the
code produces a manifest (here with zero boxes), so no `InvalidLineItem`
rejection exists. -/
theorem zero_qty_counterexample :
    make_pickship ⟨1, "CUST", [⟨"a", 0⟩]⟩ [("a", ⟨"a", "n", 1⟩)] 10 =
      .ok ⟨1, [], 0⟩ := rfl

/-- C7, amended: zero-or-negative-quantity line items are silently skipped,
not rejected: `range(li.qty)` is empty for them, so (their codes still being
looked up) the result equals that of the order with those line items
removed. -/
theorem zero_qty_amended (order : Order) (inv : Inventory) (cap : ℚ)
    (h : ∀ li ∈ order.line_items, li.qty ≤ 0 → invFind inv li.code ≠ none) :
    make_pickship order inv cap =
      make_pickship ⟨order.number, order.customer_code,
        order.line_items.filter (fun li => decide (0 < li.qty))⟩ inv cap := by
  simp only [make_pickship]
  rw [← unroll_filter_pos inv order.line_items h]

theorem zero_qty_amended_witness :
    make_pickship ⟨3, "e", [⟨"a", 0⟩, ⟨"b", 2⟩]⟩
        [("a", ⟨"a", "n", 1⟩), ("b", ⟨"b", "m", 1⟩)] 10 =
      make_pickship ⟨3, "e",
          ([⟨"a", 0⟩, ⟨"b", 2⟩] : List LineItem).filter
            (fun li => decide (0 < li.qty))⟩
        [("a", ⟨"a", "n", 1⟩), ("b", ⟨"b", "m", 1⟩)] 10 :=
  zero_qty_amended ⟨3, "e", [⟨"a", 0⟩, ⟨"b", 2⟩]⟩
    [("a", ⟨"a", "n", 1⟩), ("b", ⟨"b", "m", 1⟩)] 10 (by decide)

/-- C8. Concrete first-fit-descending example: weights [6,5,4,3,2,2] at
capacity 10 pack into exactly three bins [6,4] (weight 10), [5,3,2]
(weight 10) and [2] (weight 2), in creation order. -/
theorem ffd_concrete_example :
    first_fit_descending_pack
        [⟨"i6", "", 6⟩, ⟨"i5", "", 5⟩, ⟨"i4", "", 4⟩,
         ⟨"i3", "", 3⟩, ⟨"i2a", "", 2⟩, ⟨"i2b", "", 2⟩] 10 =
      .ok [⟨[⟨"i6", "", 6⟩, ⟨"i4", "", 4⟩], 10⟩,
           ⟨[⟨"i5", "", 5⟩, ⟨"i3", "", 3⟩, ⟨"i2a", "", 2⟩], 10⟩,
           ⟨[⟨"i2b", "", 2⟩], 2⟩] := by
  norm_num [first_fit_descending_pack, sortDesc, List.insertionSort,
    List.orderedInsert, itemGE, packLoop, placeItem, Bin.add, Bin.empty]

/-- C9. Empty order: for every inventory and capacity, an order with no
line items yields a manifest with zero boxes and total weight zero, with no
error. -/
theorem empty_order (inv : Inventory) (cap : ℚ) (n : Int) (cc : String) :
    make_pickship ⟨n, cc, []⟩ inv cap = .ok ⟨n, [], 0⟩ := rfl

/-- C3. Refinement: the source packer equals the spec-described algorithm —
stable descending sort (merge sort), reject any item exceeding capacity,
then scan-bins-in-creation-order first-fit placement, new bins appended. -/
theorem ffd_refines_spec (items : List Item) (cap : ℚ) :
    first_fit_descending_pack items cap = ffd_spec items cap := by
  by_cases hex : ∃ it ∈ items, cap < it.weight
  · have hany : items.any (fun it => decide (cap < it.weight)) = true := by
      rcases hex with ⟨it, hm, hw⟩
      exact List.any_eq_true.mpr ⟨it, hm, decide_eq_true hw⟩
    have hex' : ∃ it ∈ sortDesc items, cap < it.weight := by
      rcases hex with ⟨it, hm, hw⟩
      exact ⟨it, (List.mem_insertionSort itemGE).mpr hm, hw⟩
    simp only [first_fit_descending_pack, ffd_spec, if_pos hany]
    exact packLoop_err cap (sortDesc items) hex' []
  · have hall : ∀ it ∈ sortDesc items, ¬ cap < it.weight := fun it hm hw =>
      hex ⟨it, (List.mem_insertionSort itemGE).mp hm, hw⟩
    have hany : items.any (fun it => decide (cap < it.weight)) = false := by
      rw [Bool.eq_false_iff]
      intro hq
      rcases List.any_eq_true.mp hq with ⟨x, hx, hpx⟩
      exact hex ⟨x, hx, of_decide_eq_true hpx⟩
    simp only [first_fit_descending_pack, ffd_spec, hany, Bool.false_eq_true,
      if_false]
    rw [packLoop_ok cap (sortDesc items) hall [], sortSpec_eq_sortDesc]
    have hfun : (fun bins it => placeSpec cap it bins) =
        (fun bins it => placeItem cap it bins) := by
      funext bins it
      exact placeSpec_eq_placeItem cap it bins
    rw [hfun]

/-! ### Conservation helpers -/

theorem lineQty_map_counter (l : List (String × Nat)) (c : String) :
    lineQty (l.map (fun p => (⟨p.1, (p.2 : Int)⟩ : LineItem))) c =
      (sumFor c l : Int) := by
  induction l with
  | nil => simp [lineQty, sumFor]
  | cons p rest ih =>
    simp only [List.map_cons, lineQty, List.sum_cons, sumFor]
    simp only [lineQty, sumFor] at ih
    rw [ih]
    push_cast
    by_cases hc : p.1 = c <;> simp [hc]

theorem countP_codes (c : String) (items : List Item) :
    (items.map Item.code).countP (fun s => decide (s = c)) =
      countItems c items := by
  rw [List.countP_map]
  rfl

theorem lineQty_cast_sum (c : String) (lis : List LineItem)
    (hq : ∀ li ∈ lis, 1 ≤ li.qty) :
    (((lis.map (fun li => if li.code = c then li.qty.toNat else 0)).sum :
        Nat) : Int) = lineQty lis c := by
  induction lis with
  | nil => simp [lineQty]
  | cons li rest ih =>
    simp only [List.map_cons, List.sum_cons, lineQty]
    simp only [lineQty] at ih
    rw [Nat.cast_add, ih (fun li' h' => hq li' (List.mem_cons_of_mem _ h'))]
    have h1 : 1 ≤ li.qty := hq li (List.mem_cons_self _ _)
    by_cases hc : li.code = c <;> simp [hc] <;> omega

/-- C1. Quantity conservation: for any well-formed inventory and any order
whose line items have quantity ≥ 1 (the data-model invariants), a successful
`make_pickship` yields boxes whose total quantity per code equals the
order's total quantity per that code. -/
theorem quantity_conservation (order : Order) (inv : Inventory) (cap : ℚ)
    (ps : PickShip) (hWF : invWF inv)
    (hqty : ∀ li ∈ order.line_items, 1 ≤ li.qty)
    (h : make_pickship order inv cap = .ok ps) (c : String) :
    boxesQty ps.boxes c = lineQty order.line_items c := by
  cases hu : unroll inv order.line_items with
  | error e => simp only [make_pickship, hu] at h; cases h
  | ok items =>
    cases hp : first_fit_descending_pack items cap with
    | error e => simp only [make_pickship, hu, hp] at h; cases h
    | ok bins =>
      cases hrr : rerollBins inv 0 bins with
      | error e => simp only [make_pickship, hu, hp, hrr] at h; cases h
      | ok boxes =>
        simp only [make_pickship, hu, hp, hrr, Except.ok.injEq] at h
        rw [← h]
        show boxesQty boxes c = lineQty order.line_items c
        have hli : boxes.map Box.line_items = bins.map rerollLineItems :=
          (rerollBins_boxes inv bins 0 boxes hrr).1
        have step1 : boxesQty boxes c = (totalCount c bins : Int) := by
          rw [boxesQty]
          have hmm : boxes.map (fun b => lineQty b.line_items c) =
              (boxes.map Box.line_items).map (fun lis => lineQty lis c) := by
            rw [List.map_map]
            rfl
          rw [hmm, hli, List.map_map]
          have hpb : bins.map ((fun lis => lineQty lis c) ∘ rerollLineItems) =
              bins.map (fun b => ((countItems c b.items : Nat) : Int)) := by
            apply List.map_congr_left
            intro b _
            show lineQty (rerollLineItems b) c = ((countItems c b.items : Nat) : Int)
            rw [rerollLineItems, lineQty_map_counter, sumFor_counter,
              countP_codes]
          rw [hpb, totalCount]
          push_cast [List.map_map]
          rfl
        have step2 : totalCount c bins = countItems c items := by
          have hloop : packLoop cap [] (sortDesc items) = .ok bins := hp
          rw [packLoop_count c cap (sortDesc items) [] bins hloop]
          have h0 : totalCount c [] = 0 := by simp [totalCount]
          rw [h0]
          show 0 + countItems c (sortDesc items) = countItems c items
          rw [Nat.zero_add, countItems, countItems]
          exact (List.perm_insertionSort itemGE items).countP_eq _
        have step3 := unroll_count inv hWF c order.line_items items hu
        rw [step1, step2, step3, lineQty_cast_sum c order.line_items hqty]

/-- C2. Capacity bound: with a well-formed inventory, every box of a
successful `make_pickship` weighs at most the capacity, and every bin of a
successful `first_fit_descending_pack` weighs at most the capacity. -/
theorem capacity_bound (order : Order) (inv : Inventory) (cap : ℚ)
    (ps : PickShip) (its : List Item) (bins2 : List Bin) (hWF : invWF inv)
    (h : make_pickship order inv cap = .ok ps)
    (hpack2 : first_fit_descending_pack its cap = .ok bins2) :
    (∀ box ∈ ps.boxes, box.weight ≤ cap) ∧
      (∀ b ∈ bins2, b.weight ≤ cap) := by
  constructor
  · cases hu : unroll inv order.line_items with
    | error e => simp only [make_pickship, hu] at h; cases h
    | ok items =>
      cases hp : first_fit_descending_pack items cap with
      | error e => simp only [make_pickship, hu, hp] at h; cases h
      | ok bins =>
        cases hrr : rerollBins inv 0 bins with
        | error e => simp only [make_pickship, hu, hp, hrr] at h; cases h
        | ok boxes =>
          simp only [make_pickship, hu, hp, hrr, Except.ok.injEq] at h
          rw [← h]
          intro box hbox
          have hloop : packLoop cap [] (sortDesc items) = .ok bins := hp
          have hWFbins : ∀ b ∈ bins, binWF b :=
            packLoop_binWF cap (sortDesc items) [] bins hloop (by simp)
          have hcap : ∀ b ∈ bins, b.weight ≤ cap :=
            packLoop_le_cap cap (sortDesc items) [] bins hloop (by simp)
          have hself : ∀ b ∈ bins, ∀ x ∈ b.items,
              invFind inv x.code = some x := by
            refine packLoop_pred _ cap (sortDesc items) [] bins hloop
              (by simp) ?_
            intro x hx
            exact unroll_self inv hWF order.line_items items hu x
              ((List.mem_insertionSort itemGE).mp hx)
          obtain ⟨b, hb, hlis, hweq⟩ :=
            (rerollBins_boxes inv bins 0 boxes hrr).2 box hbox
          have hres : ∀ p ∈ counter (b.items.map Item.code),
              ∃ it, invFind inv p.1 = some it := by
            intro p hp'
            have hc' := counter_keys_mem _ p hp'
            rcases List.mem_map.mp hc' with ⟨x, hxmem, hxcode⟩
            exact ⟨x, by rw [← hxcode]; exact hself b hb x hxmem⟩
          rw [rerollLineItems, boxWeight_counter inv _ hres] at hweq
          injection hweq with hweq'
          rw [← hweq', wsum_counter, List.map_map]
          have hmapw : b.items.map (weightOf inv ∘ Item.code) =
              b.items.map Item.weight := by
            apply List.map_congr_left
            intro x hxmem
            show weightOf inv x.code = x.weight
            rw [weightOf, hself b hb x hxmem]
          rw [hmapw]
          have hbWF := hWFbins b hb
          rw [binWF, itemsWeight] at hbWF
          rw [← hbWF]
          exact hcap b hb
  · have hloop2 : packLoop cap [] (sortDesc its) = .ok bins2 := hpack2
    exact packLoop_le_cap cap (sortDesc its) [] bins2 hloop2 (by simp)

/-- C10. Box well-formedness: in a successful manifest every box carries at
least one line item, its line items have pairwise distinct codes and
quantities ≥ 1, and the box numbers are 0, 1, 2, … in sequence order. -/
theorem box_wellformedness (order : Order) (inv : Inventory) (cap : ℚ)
    (ps : PickShip) (h : make_pickship order inv cap = .ok ps) :
    (∀ box ∈ ps.boxes, box.line_items ≠ [] ∧
      (box.line_items.map LineItem.code).Nodup ∧
      ∀ li ∈ box.line_items, 1 ≤ li.qty) ∧
    ps.boxes.map Box.number = List.range ps.boxes.length := by
  cases hu : unroll inv order.line_items with
  | error e => simp only [make_pickship, hu] at h; cases h
  | ok items =>
    cases hp : first_fit_descending_pack items cap with
    | error e => simp only [make_pickship, hu, hp] at h; cases h
    | ok bins =>
      cases hrr : rerollBins inv 0 bins with
      | error e => simp only [make_pickship, hu, hp, hrr] at h; cases h
      | ok boxes =>
        simp only [make_pickship, hu, hp, hrr, Except.ok.injEq] at h
        rw [← h]
        have hloop : packLoop cap [] (sortDesc items) = .ok bins := hp
        have hne : ∀ b ∈ bins, b.items ≠ [] :=
          packLoop_ne_nil cap (sortDesc items) [] bins hloop (by simp)
        have hbx := (rerollBins_boxes inv bins 0 boxes hrr).2
        constructor
        · intro box hbox
          obtain ⟨b, hb, hlis, _⟩ := hbx box hbox
          have hcodes_ne : b.items.map Item.code ≠ [] := by
            intro hnil
            exact hne b hb (List.map_eq_nil.mp hnil)
          refine ⟨?_, ?_, ?_⟩
          · rw [hlis, rerollLineItems]
            intro hnil
            exact counter_ne_nil _ hcodes_ne (List.map_eq_nil.mp hnil)
          · rw [hlis, rerollLineItems, List.map_map]
            exact counter_keys_nodup _
          · intro li hli
            rw [hlis, rerollLineItems] at hli
            rcases List.mem_map.mp hli with ⟨p, hp', hpe⟩
            have hpos := counter_pos _ p hp'
            rw [← hpe]
            show (1 : Int) ≤ (p.2 : Int)
            omega
        · show boxes.map Box.number = List.range boxes.length
          rw [rerollBins_numbers inv bins 0 boxes hrr]
          have hlen : boxes.length = bins.length := by
            have hc := congrArg List.length
              (rerollBins_boxes inv bins 0 boxes hrr).1
            simpa using hc
          rw [← hlen, List.range_eq_range']

theorem quantity_conservation_witness :
    boxesQty [⟨0, [⟨"a", 3⟩], 6⟩] "a" = lineQty [⟨"a", 3⟩] "a" :=
  quantity_conservation ⟨1, "c", [⟨"a", 3⟩]⟩ [("a", ⟨"a", "n", 2⟩)] 10
    ⟨1, [⟨0, [⟨"a", 3⟩], 6⟩], 6⟩ (by simp [invWF]) (by decide)
    (by norm_num [make_pickship, unroll, invFind, first_fit_descending_pack,
      sortDesc, List.insertionSort, List.orderedInsert, itemGE, packLoop,
      placeItem, Bin.add, Bin.empty, rerollBins, rerollLineItems, counter,
      bumpCode, boxWeight, List.replicate]) "a"

theorem capacity_bound_witness :
    (∀ box ∈ ([⟨0, [⟨"a", 3⟩], 6⟩] : List Box), box.weight ≤ 10) ∧
      (∀ b ∈ ([⟨[⟨"b", "m", 4⟩], 4⟩] : List Bin), b.weight ≤ 10) :=
  capacity_bound ⟨1, "c", [⟨"a", 3⟩]⟩ [("a", ⟨"a", "n", 2⟩)] 10
    ⟨1, [⟨0, [⟨"a", 3⟩], 6⟩], 6⟩ [⟨"b", "m", 4⟩] [⟨[⟨"b", "m", 4⟩], 4⟩]
    (by simp [invWF])
    (by norm_num [make_pickship, unroll, invFind, first_fit_descending_pack,
      sortDesc, List.insertionSort, List.orderedInsert, itemGE, packLoop,
      placeItem, Bin.add, Bin.empty, rerollBins, rerollLineItems, counter,
      bumpCode, boxWeight, List.replicate])
    (by norm_num [first_fit_descending_pack, sortDesc, List.insertionSort,
      List.orderedInsert, itemGE, packLoop, placeItem, Bin.add, Bin.empty])

theorem box_wellformedness_witness :
    (∀ box ∈ ([⟨0, [⟨"a", 3⟩], 6⟩] : List Box), box.line_items ≠ [] ∧
      (box.line_items.map LineItem.code).Nodup ∧
      ∀ li ∈ box.line_items, 1 ≤ li.qty) ∧
      ([⟨0, [⟨"a", 3⟩], 6⟩] : List Box).map Box.number =
        List.range ([⟨0, [⟨"a", 3⟩], 6⟩] : List Box).length :=
  box_wellformedness ⟨1, "c", [⟨"a", 3⟩]⟩ [("a", ⟨"a", "n", 2⟩)] 10
    ⟨1, [⟨0, [⟨"a", 3⟩], 6⟩], 6⟩
    (by norm_num [make_pickship, unroll, invFind, first_fit_descending_pack,
      sortDesc, List.insertionSort, List.orderedInsert, itemGE, packLoop,
      placeItem, Bin.add, Bin.empty, rerollBins, rerollLineItems, counter,
      bumpCode, boxWeight, List.replicate])

end Pickship
